import Mathlib

/-!
Verification development for the aqmsp_models repository (KDD24 air-quality
interpolation models).

The development shallowly embeds the numerical core of the DeepTime model
(aqmsp_models/models/deeptime/model.py) and the glue code around it:

* the per-dimension closed-form ridge solve of DeepTime.forward
  (covariance assembly, Cholesky-based solve, bias augmentation),
* the context-target normalization wrapper of DeepTime.forward,
* the vmapped per-dimension batching,
* the context/target split of the fit-time dataset,
* the checkpoint-on-improvement logic and artifact writes of fit / predict,
* the min/max normalization bookkeeping shared between fit and predict,
* the per-time-step worker of the random-forest baseline
  (aqmsp_models/models/rf/model.py).

External library calls (torch.linalg.cholesky, torch.cholesky_solve,
torch.vmap, numpy's global RNG) are modelled by their documented contracts;
everything written in the repository itself is translated directly.
Machine floats are modelled as exact field elements (generic linearly
ordered field, instantiated at the rationals or the reals).
-/

namespace AqmspModels

open Finset Matrix

variable {α : Type} [LinearOrderedField α]

/-- The number of context points drawn at fit time:
int(config.context_fraction * len(X)) in fit.CustomDataset.__getitem__
(deeptime/model.py line 91).  Python's int() truncates toward zero, which for
a nonnegative fraction is the floor. -/
def numContext (contextFraction : ℚ) (n : ℕ) : ℕ :=
  (Int.floor (contextFraction * n)).toNat

/-- Row i of a forward substitution for a lower-triangular system, on
ℕ-indexed data.  This is the substitution step that torch.cholesky_solve
performs with the lower Cholesky factor. -/
def fsNat (Lf : ℕ → ℕ → α) (bf : ℕ → α) : ℕ → α
  | i =>
    (bf i - ∑ j in (Finset.range i).attach, Lf i j.val * fsNat Lf bf j.val) / Lf i i
termination_by i => i
decreasing_by exact Finset.mem_range.mp j.property

theorem fsNat_def (Lf : ℕ → ℕ → α) (bf : ℕ → α) (i : ℕ) :
    fsNat Lf bf i =
      (bf i - ∑ j in (Finset.range i).attach, Lf i j.val * fsNat Lf bf j.val) / Lf i i := by
  conv_lhs => rw [fsNat]

theorem fsNat_zero_rhs (Lf : ℕ → ℕ → α) (i : ℕ) :
    fsNat Lf (fun _ => 0) i = 0 := by
  induction i using Nat.strong_induction_on with
  | _ i ih =>
    rw [fsNat_def]
    have hs : (∑ j in (Finset.range i).attach, Lf i j.val * fsNat Lf (fun _ => 0) j.val) = 0 := by
      apply Finset.sum_eq_zero
      intro j _
      rw [ih j.val (Finset.mem_range.mp j.property)]
      ring
    rw [hs]
    simp

theorem fsNat_step (Lf : ℕ → ℕ → α) (bf : ℕ → α) (i : ℕ) (hd : Lf i i ≠ 0) :
    ∑ j in Finset.range (i + 1), Lf i j * fsNat Lf bf j = bf i := by
  rw [Finset.sum_range_succ]
  have hrec := fsNat_def Lf bf i
  have hattach : (∑ j in (Finset.range i).attach, Lf i j.val * fsNat Lf bf j.val)
      = ∑ j in Finset.range i, Lf i j * fsNat Lf bf j :=
    Finset.sum_attach (Finset.range i) (fun j => Lf i j * fsNat Lf bf j)
  rw [hrec, hattach]
  field_simp

/-- Extension of a square Fin-indexed matrix to ℕ indices by zero. -/
def matExt {n : ℕ} (L : Matrix (Fin n) (Fin n) α) : ℕ → ℕ → α := fun i j =>
  if h : i < n ∧ j < n then L ⟨i, h.1⟩ ⟨j, h.2⟩ else 0

/-- Extension of a Fin-indexed vector to ℕ indices by zero. -/
def vecExt {n : ℕ} (b : Fin n → α) : ℕ → α := fun i =>
  if h : i < n then b ⟨i, h⟩ else 0

/-- Forward substitution solving L x = b for a lower-triangular L — the first
half of torch.cholesky_solve's substitution pass. -/
def forwardSubst {n : ℕ} (L : Matrix (Fin n) (Fin n) α) (b : Fin n → α) : Fin n → α :=
  fun i => fsNat (matExt L) (vecExt b) i.val

/-- L is lower triangular: entries strictly above the diagonal vanish. -/
def lowerTri {n : ℕ} (L : Matrix (Fin n) (Fin n) α) : Prop :=
  ∀ i j : Fin n, i < j → L i j = 0

/-- U is upper triangular: entries strictly below the diagonal vanish. -/
def upperTri {n : ℕ} (U : Matrix (Fin n) (Fin n) α) : Prop :=
  ∀ i j : Fin n, j < i → U i j = 0

theorem matExt_apply {n : ℕ} (L : Matrix (Fin n) (Fin n) α) (i j : Fin n) :
    matExt L i.val j.val = L i j := by
  simp [matExt, i.isLt, j.isLt]

theorem forwardSubst_mulVec {n : ℕ} (L : Matrix (Fin n) (Fin n) α) (b : Fin n → α)
    (htri : lowerTri L) (hd : ∀ i, L i i ≠ 0) :
    L.mulVec (forwardSubst L b) = b := by
  funext i
  have step1 : L.mulVec (forwardSubst L b) i
      = ∑ j in Finset.range n, matExt L i.val j * fsNat (matExt L) (vecExt b) j := by
    rw [Matrix.mulVec, dotProduct]
    rw [← Fin.sum_univ_eq_sum_range (fun j => matExt L i.val j * fsNat (matExt L) (vecExt b) j) n]
    apply Finset.sum_congr rfl
    intro j _
    rw [matExt_apply]
    rfl
  have step2 : ∑ j in Finset.range n, matExt L i.val j * fsNat (matExt L) (vecExt b) j
      = ∑ j in Finset.range (i.val + 1), matExt L i.val j * fsNat (matExt L) (vecExt b) j := by
    symm
    apply Finset.sum_subset
    · exact Finset.range_subset.mpr i.isLt
    · intro j hj hj'
      have hij : i.val < j := by
        have := Finset.mem_range.not.mp hj'
        omega
      have hzero : matExt L i.val j = 0 := by
        by_cases hjn : j < n
        · have : L i ⟨j, hjn⟩ = 0 := htri i ⟨j, hjn⟩ hij
          simpa [matExt, i.isLt, hjn] using this
        · simp [matExt, hjn]
      rw [hzero, zero_mul]
  have hdia : matExt L i.val i.val ≠ 0 := by
    rw [matExt_apply]
    exact hd i
  rw [step1, step2, fsNat_step (matExt L) (vecExt b) i.val hdia]
  simp [vecExt, i.isLt]

/-- Index-reversal of a square matrix (conjugation by the order-reversing
permutation of Fin n). -/
def revMat {n : ℕ} (M : Matrix (Fin n) (Fin n) α) : Matrix (Fin n) (Fin n) α :=
  Matrix.of fun i j => M i.rev j.rev

/-- Backward substitution solving U x = b for an upper-triangular U — the
second half of torch.cholesky_solve's substitution pass, realized as forward
substitution on the index-reversed system. -/
def backSubst {n : ℕ} (U : Matrix (Fin n) (Fin n) α) (b : Fin n → α) : Fin n → α :=
  fun i => forwardSubst (revMat U) (fun j => b j.rev) i.rev

theorem backSubst_mulVec {n : ℕ} (U : Matrix (Fin n) (Fin n) α) (b : Fin n → α)
    (htri : upperTri U) (hd : ∀ i, U i i ≠ 0) :
    U.mulVec (backSubst U b) = b := by
  have hLtri : lowerTri (revMat U) := by
    intro i j hij
    exact htri i.rev j.rev (Fin.rev_lt_rev.mpr hij)
  have hLd : ∀ i, revMat U i i ≠ 0 := fun i => hd i.rev
  have key := forwardSubst_mulVec (revMat U) (fun j => b j.rev) hLtri hLd
  funext i
  have keyi := congrFun key i.rev
  have step : U.mulVec (backSubst U b) i
      = (revMat U).mulVec (forwardSubst (revMat U) (fun j => b j.rev)) i.rev := by
    rw [Matrix.mulVec, Matrix.mulVec, dotProduct, dotProduct]
    rw [← Equiv.sum_comp (Fin.revPerm (n := n))
      (fun j => U i j * backSubst U b j)]
    apply Finset.sum_congr rfl
    intro j _
    have h1 : U i (Fin.revPerm j) = revMat U i.rev j := by
      simp [revMat, Fin.revPerm]
    have h2 : backSubst U b (Fin.revPerm j)
        = forwardSubst (revMat U) (fun j => b j.rev) j := by
      simp [backSubst, Fin.revPerm, Fin.rev_rev]
    rw [h1, h2]
  rw [step, keyi]
  simp [Fin.rev_rev]

/-- torch.cholesky_solve with a lower factor L: solve L z = b by forward
substitution, then solve Lᵀ x = z by backward substitution, yielding the
solution of (L * Lᵀ) x = b. -/
def choleskySolveVec {n : ℕ} (L : Matrix (Fin n) (Fin n) α) (b : Fin n → α) : Fin n → α :=
  backSubst Lᵀ (forwardSubst L b)

theorem transpose_upperTri {n : ℕ} (L : Matrix (Fin n) (Fin n) α)
    (htri : lowerTri L) : upperTri Lᵀ := by
  intro i j hji
  exact htri j i hji

theorem choleskySolveVec_mulVec {n : ℕ} (L : Matrix (Fin n) (Fin n) α) (b : Fin n → α)
    (htri : lowerTri L) (hd : ∀ i, L i i ≠ 0) :
    (L * Lᵀ).mulVec (choleskySolveVec L b) = b := by
  rw [← Matrix.mulVec_mulVec]
  rw [choleskySolveVec,
    backSubst_mulVec Lᵀ (forwardSubst L b) (transpose_upperTri L htri)
      (fun i => by simpa [Matrix.transpose_apply] using hd i),
    forwardSubst_mulVec L b htri hd]

theorem choleskySolveVec_zero {n : ℕ} (L : Matrix (Fin n) (Fin n) α) :
    choleskySolveVec L (fun _ => (0 : α)) = fun _ => 0 := by
  have hfs : forwardSubst L (fun _ => (0 : α)) = fun _ => 0 := by
    funext i
    have hv : vecExt (α := α) (n := n) (fun _ => (0 : α)) = fun _ => 0 := by
      funext j
      simp [vecExt]
    rw [forwardSubst, hv, fsNat_zero_rhs]
  rw [choleskySolveVec, hfs]
  funext i
  have hv : vecExt (α := α) (n := n) (fun _ => (0 : α)) = fun _ => 0 := by
    funext j
    simp [vecExt]
  rw [backSubst, forwardSubst, hv]
  exact fsNat_zero_rhs _ _

theorem lowerTri_det {n : ℕ} (L : Matrix (Fin n) (Fin n) α) (htri : lowerTri L) :
    L.det = ∏ i, L i i := by
  have hBT : Lᵀ.BlockTriangular id := by
    intro i j hji
    exact htri j i hji
  have hdet := Matrix.det_of_upperTriangular hBT
  rw [← Matrix.det_transpose L, hdet]
  apply Finset.prod_congr rfl
  intro i _
  rfl

theorem mulVec_solution_unique {m : ℕ} (A : Matrix (Fin m) (Fin m) α) (r w : Fin m → α)
    (hdet : IsUnit A.det) (hw : A.mulVec w = r) : w = A⁻¹.mulVec r := by
  calc w = (1 : Matrix (Fin m) (Fin m) α).mulVec w := (Matrix.one_mulVec w).symm
    _ = (A⁻¹ * A).mulVec w := by rw [Matrix.nonsing_inv_mul A hdet]
    _ = A⁻¹.mulVec (A.mulVec w) := (Matrix.mulVec_mulVec w A⁻¹ A).symm
    _ = A⁻¹.mulVec r := by rw [hw]

/-- torch.cat([repr, torch.ones(N, 1)], dim=1): append a constant bias column
to a representation matrix (deeptime/model.py lines 36-39). -/
def augmentBias {N R : ℕ} (M : Matrix (Fin N) (Fin R) α) : Matrix (Fin N) (Fin (R + 1)) α :=
  Matrix.of fun i j => if h : (j : ℕ) < R then M i ⟨j, h⟩ else 1

/-- cov = context_reprᵀ @ context_repr, then cov.diagonal().add_(noise
variance) — the regularized normal-equations matrix of DeepTime.forward
(deeptime/model.py lines 41-42). -/
def ridgeCov {Nc R : ℕ} (Phi : Matrix (Fin Nc) (Fin (R + 1)) α) (noiseVar : α) :
    Matrix (Fin (R + 1)) (Fin (R + 1)) α :=
  Phiᵀ * Phi + noiseVar • 1

/-- xty = context_reprᵀ @ y_context (deeptime/model.py line 43). -/
def ridgeRhs {Nc R : ℕ} (Phi : Matrix (Fin Nc) (Fin (R + 1)) α) (y : Fin Nc → α) :
    Fin (R + 1) → α :=
  Phiᵀ.mulVec y

/-- L is the Cholesky factor torch.linalg.cholesky is contracted to return on
a positive-definite input: lower triangular, strictly positive diagonal, and
L * Lᵀ equal to the input (stated entrywise). -/
def CholeskyFactorOf {m : ℕ} (L A : Matrix (Fin m) (Fin m) α) : Prop :=
  (∀ i j : Fin m, i < j → L i j = 0) ∧ (∀ i, 0 < L i i) ∧ (∀ i j, (L * Lᵀ) i j = A i j)

instance {m : ℕ} (L A : Matrix (Fin m) (Fin m) α) : Decidable (CholeskyFactorOf L A) :=
  inferInstanceAs (Decidable ((∀ i j : Fin m, i < j → L i j = 0)
    ∧ (∀ i, 0 < L i i) ∧ (∀ i j, (L * Lᵀ) i j = A i j)))

/-- The body of DeepTime.forward.single_dim_calc (deeptime/model.py lines
31-48): encode context and target points, append the bias column, assemble
the regularized covariance and right-hand side, factor the covariance with
the Cholesky oracle (torch.linalg.cholesky), solve by forward/backward
substitution (torch.cholesky_solve), and predict target_repr @ w.
noiseVar stands for torch.exp(self.log_noise_var). -/
def single_dim_calc {Nc Nt Fd R : ℕ}
    (mlp : {N : ℕ} → Matrix (Fin N) (Fin Fd) α → Matrix (Fin N) (Fin R) α)
    (chol : Matrix (Fin (R + 1)) (Fin (R + 1)) α → Matrix (Fin (R + 1)) (Fin (R + 1)) α)
    (noiseVar : α)
    (xContext : Matrix (Fin Nc) (Fin Fd) α) (yContext : Fin Nc → α)
    (xTarget : Matrix (Fin Nt) (Fin Fd) α) : Fin Nt → α :=
  let contextRepr := augmentBias (mlp xContext)
  let targetRepr := augmentBias (mlp xTarget)
  let cov := ridgeCov contextRepr noiseVar
  let xty := ridgeRhs contextRepr yContext
  let cholL := chol cov
  targetRepr.mulVec (choleskySolveVec cholL xty)

theorem choleskyFactor_solves {m : ℕ} (L A : Matrix (Fin m) (Fin m) α) (b : Fin m → α)
    (hL : CholeskyFactorOf L A) : A.mulVec (choleskySolveVec L b) = b := by
  obtain ⟨htri, hpos, hfac⟩ := hL
  have hA : L * Lᵀ = A := Matrix.ext hfac
  rw [← hA]
  exact choleskySolveVec_mulVec L b htri (fun i => ne_of_gt (hpos i))

theorem choleskyFactor_det_isUnit {m : ℕ} (L A : Matrix (Fin m) (Fin m) α)
    (hL : CholeskyFactorOf L A) : IsUnit A.det := by
  obtain ⟨htri, hpos, hfac⟩ := hL
  have hA : L * Lᵀ = A := Matrix.ext hfac
  have hdetL : L.det = ∏ i, L i i := lowerTri_det L htri
  have hne : L.det ≠ 0 := by
    rw [hdetL]
    exact Finset.prod_ne_zero_iff.mpr (fun i _ => ne_of_gt (hpos i))
  have : A.det = L.det * L.det := by
    rw [← hA, Matrix.det_mul, Matrix.det_transpose]
  rw [isUnit_iff_ne_zero, this]
  exact mul_ne_zero hne hne

/-- C1: For every bias-augmented context representation matrix (Nc ≥ R+2,
well-conditioned, i.e. the regularized covariance admits a Cholesky factor),
every pre-normalized context target vector and every noise variance
exp(log_noise_var), the ridge solve inside DeepTime.forward computes, via the
Cholesky factorization and forward/backward substitution (cholesky_solve,
with no explicit matrix inversion in the code path), exactly the unique
analytic ridge-regression weights w = (Φcᵀ Φc + exp(log_noise_var) I)⁻¹
(Φcᵀ y_c), and the per-dimension prediction equals Φt @ w. -/
theorem c1_ridge_solve_closed_form {Nc Nt Fd R : ℕ}
    (mlp : {N : ℕ} → Matrix (Fin N) (Fin Fd) α → Matrix (Fin N) (Fin R) α)
    (chol : Matrix (Fin (R + 1)) (Fin (R + 1)) α → Matrix (Fin (R + 1)) (Fin (R + 1)) α)
    (noiseVar : α)
    (xContext : Matrix (Fin Nc) (Fin Fd) α) (yContext : Fin Nc → α)
    (xTarget : Matrix (Fin Nt) (Fin Fd) α)
    (_hNc : R + 2 ≤ Nc)
    (hL : CholeskyFactorOf (chol (ridgeCov (augmentBias (mlp xContext)) noiseVar))
        (ridgeCov (augmentBias (mlp xContext)) noiseVar)) :
    single_dim_calc mlp chol noiseVar xContext yContext xTarget
      = (augmentBias (mlp xTarget)).mulVec
          ((ridgeCov (augmentBias (mlp xContext)) noiseVar)⁻¹.mulVec
            (ridgeRhs (augmentBias (mlp xContext)) yContext))
    ∧ ∀ w, (ridgeCov (augmentBias (mlp xContext)) noiseVar).mulVec w
          = ridgeRhs (augmentBias (mlp xContext)) yContext
        → w = (ridgeCov (augmentBias (mlp xContext)) noiseVar)⁻¹.mulVec
            (ridgeRhs (augmentBias (mlp xContext)) yContext) := by
  have hsolve := choleskyFactor_solves
    (chol (ridgeCov (augmentBias (mlp xContext)) noiseVar))
    (ridgeCov (augmentBias (mlp xContext)) noiseVar)
    (ridgeRhs (augmentBias (mlp xContext)) yContext) hL
  have hdet := choleskyFactor_det_isUnit
    (chol (ridgeCov (augmentBias (mlp xContext)) noiseVar))
    (ridgeCov (augmentBias (mlp xContext)) noiseVar) hL
  have hkey := mulVec_solution_unique
    (ridgeCov (augmentBias (mlp xContext)) noiseVar)
    (ridgeRhs (augmentBias (mlp xContext)) yContext) _ hdet hsolve
  constructor
  · show (augmentBias (mlp xTarget)).mulVec
        (choleskySolveVec (chol (ridgeCov (augmentBias (mlp xContext)) noiseVar))
          (ridgeRhs (augmentBias (mlp xContext)) yContext)) = _
    rw [hkey]
  · intro w hw
    exact mulVec_solution_unique _ _ w hdet hw

/-- Concrete instantiation of c1_ridge_solve_closed_form: representation
dimension R = 1, three context points with representations 2, -2, 0 (so
Φc = [[2,1],[-2,1],[0,1]]), noise variance 1, giving the covariance
[[9,0],[0,4]] with exact rational Cholesky factor [[3,0],[0,2]]. -/
theorem c1_ridge_solve_closed_form_witness :
    (1 + 2 ≤ 3
      ∧ CholeskyFactorOf (α := ℚ) !![3, 0; 0, 2]
          (ridgeCov (augmentBias ((fun {N} (M : Matrix (Fin N) (Fin 1) ℚ) => M)
            !![(2 : ℚ); -2; 0])) 1))
    ∧ (single_dim_calc (α := ℚ) (fun {N} M => M) (fun _ => !![3, 0; 0, 2]) 1
          !![(2 : ℚ); -2; 0] ![1, 2, 3] !![(1 : ℚ)]
        = (augmentBias ((fun {N} (M : Matrix (Fin N) (Fin 1) ℚ) => M) !![(1 : ℚ)])).mulVec
            ((ridgeCov (augmentBias ((fun {N} (M : Matrix (Fin N) (Fin 1) ℚ) => M)
                !![(2 : ℚ); -2; 0])) 1)⁻¹.mulVec
              (ridgeRhs (augmentBias ((fun {N} (M : Matrix (Fin N) (Fin 1) ℚ) => M)
                !![(2 : ℚ); -2; 0])) ![1, 2, 3]))
      ∧ ∀ w, (ridgeCov (augmentBias ((fun {N} (M : Matrix (Fin N) (Fin 1) ℚ) => M)
              !![(2 : ℚ); -2; 0])) 1).mulVec w
            = ridgeRhs (augmentBias ((fun {N} (M : Matrix (Fin N) (Fin 1) ℚ) => M)
              !![(2 : ℚ); -2; 0])) ![1, 2, 3]
          → w = (ridgeCov (augmentBias ((fun {N} (M : Matrix (Fin N) (Fin 1) ℚ) => M)
              !![(2 : ℚ); -2; 0])) 1)⁻¹.mulVec
              (ridgeRhs (augmentBias ((fun {N} (M : Matrix (Fin N) (Fin 1) ℚ) => M)
                !![(2 : ℚ); -2; 0])) ![1, 2, 3])) := by
  have hA : ridgeCov (augmentBias ((fun {N} (M : Matrix (Fin N) (Fin 1) ℚ) => M)
      !![(2 : ℚ); -2; 0])) 1 = !![9, 0; 0, 4] := by
    ext i j
    fin_cases i <;> fin_cases j <;>
      norm_num [ridgeCov, augmentBias, Matrix.mul_apply, Matrix.one_apply, Fin.sum_univ_succ]
  have hL : CholeskyFactorOf (α := ℚ) !![3, 0; 0, 2]
      (ridgeCov (augmentBias ((fun {N} (M : Matrix (Fin N) (Fin 1) ℚ) => M)
        !![(2 : ℚ); -2; 0])) 1) := by
    rw [hA]
    refine ⟨?_, ?_, ?_⟩
    · intro i j hij
      fin_cases i <;> fin_cases j <;> first
        | exact absurd hij (by decide)
        | norm_num
    · intro i
      fin_cases i <;> norm_num
    · intro i j
      fin_cases i <;> fin_cases j <;>
        norm_num [Matrix.mul_apply, Matrix.transpose_apply, Fin.sum_univ_succ,
          Matrix.vecHead, Matrix.vecTail]
  exact ⟨⟨by norm_num, hL⟩,
    c1_ridge_solve_closed_form (fun {N} M => M) (fun _ => !![3, 0; 0, 2]) 1
      !![(2 : ℚ); -2; 0] ![1, 2, 3] !![(1 : ℚ)] (by norm_num) hL⟩

/-- Positive definiteness of a real symmetric matrix: the documented success
condition of torch.linalg.cholesky (the factorization exists, and the call
does not raise, exactly on positive-definite input). -/
def PosDefM {m : ℕ} (A : Matrix (Fin m) (Fin m) α) : Prop :=
  (∀ i j, A i j = A j i) ∧ ∀ v : Fin m → α, v ≠ 0 → 0 < dotProduct v (A.mulVec v)

theorem smul_one_posDef {m : ℕ} (nv : α) (hnv : 0 < nv) :
    PosDefM (nv • (1 : Matrix (Fin m) (Fin m) α)) := by
  constructor
  · intro i j
    by_cases h : i = j
    · subst h; rfl
    · rw [Matrix.smul_apply, Matrix.smul_apply, Matrix.one_apply_ne h,
        Matrix.one_apply_ne (Ne.symm h)]
  · intro v hv
    rw [Matrix.smul_mulVec_assoc, Matrix.one_mulVec]
    have hne : ∃ i, v i ≠ 0 := by
      by_contra hall
      push_neg at hall
      exact hv (funext hall)
    obtain ⟨i0, hi0⟩ := hne
    rw [dotProduct]
    apply Finset.sum_pos'
    · intro i _
      have : v i * (nv • v) i = nv * (v i * v i) := by
        simp [Pi.smul_apply, smul_eq_mul]
        ring
      rw [this]
      exact mul_nonneg (le_of_lt hnv) (mul_self_nonneg _)
    · refine ⟨i0, Finset.mem_univ i0, ?_⟩
      have : v i0 * (nv • v) i0 = nv * (v i0 * v i0) := by
        simp [Pi.smul_apply, smul_eq_mul]
        ring
      rw [this]
      exact mul_pos hnv (mul_self_pos.mpr hi0)

theorem ridgeCov_empty_context {R : ℕ} (mlpC : Matrix (Fin 0) (Fin R) α) (nv : α) :
    ridgeCov (augmentBias mlpC) nv = nv • (1 : Matrix (Fin (R + 1)) (Fin (R + 1)) α) := by
  have hzero : (augmentBias mlpC)ᵀ * augmentBias mlpC = 0 := by
    ext i j
    simp [Matrix.mul_apply]
  rw [ridgeCov, hzero, zero_add]

theorem ridgeRhs_empty_context {R : ℕ} (mlpC : Matrix (Fin 0) (Fin R) α) (y : Fin 0 → α) :
    ridgeRhs (augmentBias mlpC) y = fun _ => 0 := by
  funext j
  simp [ridgeRhs, Matrix.mulVec, dotProduct]

/-- C5: With context_fraction = 0 the context split is empty
(int(0 * len(X)) = 0 indices), and with an empty context the covariance
assembled by single_dim_calc is the pure regularization term
exp(log_noise_var) * I, which is positive definite — so the Cholesky
factorization torch.linalg.cholesky performs does not fail — and the weight
vector solved from it (for any factor the oracle returns) is 0. -/
theorem c5_empty_context_solve {R : ℕ} (nv : α) (hnv : 0 < nv)
    (mlpC : Matrix (Fin 0) (Fin R) α) (y : Fin 0 → α)
    (L : Matrix (Fin (R + 1)) (Fin (R + 1)) α) (n : ℕ) :
    numContext 0 n = 0
    ∧ ridgeCov (augmentBias mlpC) nv = nv • (1 : Matrix (Fin (R + 1)) (Fin (R + 1)) α)
    ∧ PosDefM (ridgeCov (augmentBias mlpC) nv)
    ∧ choleskySolveVec L (ridgeRhs (augmentBias mlpC) y) = fun _ => 0 := by
  refine ⟨?_, ridgeCov_empty_context mlpC nv, ?_, ?_⟩
  · simp [numContext]
  · rw [ridgeCov_empty_context mlpC nv]
    exact smul_one_posDef nv hnv
  · rw [ridgeRhs_empty_context mlpC y]
    exact choleskySolveVec_zero L

/-- Concrete instantiation of c5_empty_context_solve at R = 1, noise
variance 1, ten observation rows. -/
theorem c5_empty_context_solve_witness :
    (0 : ℚ) < 1
    ∧ (numContext 0 10 = 0
      ∧ ridgeCov (augmentBias (0 : Matrix (Fin 0) (Fin 1) ℚ)) 1
          = (1 : ℚ) • (1 : Matrix (Fin 2) (Fin 2) ℚ)
      ∧ PosDefM (ridgeCov (augmentBias (0 : Matrix (Fin 0) (Fin 1) ℚ)) 1)
      ∧ choleskySolveVec (1 : Matrix (Fin 2) (Fin 2) ℚ)
          (ridgeRhs (augmentBias (0 : Matrix (Fin 0) (Fin 1) ℚ)) 0) = fun _ => 0) :=
  ⟨by norm_num,
    c5_empty_context_solve (1 : ℚ) (by norm_num) (0 : Matrix (Fin 0) (Fin 1) ℚ) 0
      (1 : Matrix (Fin 2) (Fin 2) ℚ) 10⟩

/-- y_context.mean(dim=1, keepdim=True) (deeptime/model.py line 27): mean of
the context targets over the datapoint axis. -/
noncomputable def ymean {N : ℕ} (y : Fin N → ℝ) : ℝ := (∑ i, y i) / N

/-- The Bessel-corrected sample variance underlying y_context.std(dim=1)
(torch.std defaults to correction = 1, dividing by N - 1). -/
noncomputable def yvar {N : ℕ} (y : Fin N → ℝ) : ℝ := (∑ i, (y i - ymean y) ^ 2) / ((N : ℝ) - 1)

/-- y_context.std(dim=1, keepdim=True) (deeptime/model.py line 28). -/
noncomputable def ystd {N : ℕ} (y : Fin N → ℝ) : ℝ := Real.sqrt (yvar y)

/-- y_context = (y_context - mean) / std (deeptime/model.py line 29). -/
noncomputable def normalizeCtx {N : ℕ} (y : Fin N → ℝ) : Fin N → ℝ :=
  fun i => (y i - ymean y) / ystd y

/-- return y_pred * std + mean (deeptime/model.py line 54): de-normalization
of predictions by the context statistics. -/
noncomputable def denormCtx {N M : ℕ} (y : Fin N → ℝ) (z : Fin M → ℝ) : Fin M → ℝ :=
  fun i => z i * ystd y + ymean y

/-- C3: for every context target vector with strictly positive context-axis
standard deviation, normalizing by (y - mean)/std and de-normalizing the
predicted-identity signal by z * std + mean returns the original values. -/
theorem c3_normalization_roundtrip {N : ℕ} (y : Fin N → ℝ) (h : 0 < ystd y) :
    denormCtx y (normalizeCtx y) = y := by
  funext i
  rw [denormCtx, normalizeCtx]
  field_simp

/-- Concrete instantiation of c3_normalization_roundtrip at the context
targets (1, 3), whose sample variance is 2 and standard deviation √2 > 0. -/
theorem c3_normalization_roundtrip_witness :
    0 < ystd ![(1 : ℝ), 3] ∧ denormCtx ![(1 : ℝ), 3] (normalizeCtx ![(1 : ℝ), 3]) = ![(1 : ℝ), 3] := by
  have hv : yvar ![(1 : ℝ), 3] = 2 := by
    norm_num [yvar, ymean, Fin.sum_univ_two]
  have h : 0 < ystd ![(1 : ℝ), 3] := by
    rw [ystd, hv]
    exact Real.sqrt_pos.mpr (by norm_num)
  exact ⟨h, c3_normalization_roundtrip ![(1 : ℝ), 3] h⟩

/-- torch.vmap(f, in_dims=(0,0,0), out_dims=0, randomness="same"): the mapped
function applied at every index of the leading axis.  With randomness "same"
the random state consumed inside f (encoder dropout) is shared across the
mapped indices, so f is one fixed function of its inputs. -/
def vmapSame {β γ : Type} {D : ℕ} (f : β → γ) (x : Fin D → β) : Fin D → γ :=
  fun d => f (x d)

/-- DeepTime.forward (deeptime/model.py lines 26-54): normalize the context
targets per leading-axis index, apply the vmapped single_dim_calc, and
de-normalize the prediction.  logNoiseVar is self.log_noise_var; the solve
uses torch.exp of it. -/
noncomputable def deepTimeForward {D Nc Nt Fd R : ℕ}
    (mlp : {N : ℕ} → Matrix (Fin N) (Fin Fd) ℝ → Matrix (Fin N) (Fin R) ℝ)
    (chol : Matrix (Fin (R + 1)) (Fin (R + 1)) ℝ → Matrix (Fin (R + 1)) (Fin (R + 1)) ℝ)
    (logNoiseVar : ℝ)
    (xContext : Fin D → Matrix (Fin Nc) (Fin Fd) ℝ)
    (yContext : Fin D → Fin Nc → ℝ)
    (xTarget : Fin D → Matrix (Fin Nt) (Fin Fd) ℝ) : Fin D → Fin Nt → ℝ :=
  let ynorm : Fin D → Fin Nc → ℝ := fun d => normalizeCtx (yContext d)
  let ypred := vmapSame
    (fun t : Matrix (Fin Nc) (Fin Fd) ℝ × (Fin Nc → ℝ) × Matrix (Fin Nt) (Fin Fd) ℝ =>
      single_dim_calc mlp chol (Real.exp logNoiseVar) t.1 t.2.1 t.2.2)
    (fun d => (xContext d, ynorm d, xTarget d))
  fun d => denormCtx (yContext d) (ypred d)

/-- The same pipeline invoked directly on a single dimension, without the
vmapped batching. -/
noncomputable def singleDimDirect {Nc Nt Fd R : ℕ}
    (mlp : {N : ℕ} → Matrix (Fin N) (Fin Fd) ℝ → Matrix (Fin N) (Fin R) ℝ)
    (chol : Matrix (Fin (R + 1)) (Fin (R + 1)) ℝ → Matrix (Fin (R + 1)) (Fin (R + 1)) ℝ)
    (logNoiseVar : ℝ)
    (xC : Matrix (Fin Nc) (Fin Fd) ℝ) (yC : Fin Nc → ℝ)
    (xT : Matrix (Fin Nt) (Fin Fd) ℝ) : Fin Nt → ℝ :=
  denormCtx yC (single_dim_calc mlp chol (Real.exp logNoiseVar) xC (normalizeCtx yC) xT)

/-- C2: for a leading dimension axis of size D = 1, the vmapped per-dimension
computation of DeepTime.forward returns exactly the output of invoking the
single-dimension pipeline directly on the one slice, with the same encoder
(hence identical shared random state under randomness="same"). -/
theorem c2_vmap_dim_one_direct {Nc Nt Fd R : ℕ}
    (mlp : {N : ℕ} → Matrix (Fin N) (Fin Fd) ℝ → Matrix (Fin N) (Fin R) ℝ)
    (chol : Matrix (Fin (R + 1)) (Fin (R + 1)) ℝ → Matrix (Fin (R + 1)) (Fin (R + 1)) ℝ)
    (logNoiseVar : ℝ)
    (xContext : Fin 1 → Matrix (Fin Nc) (Fin Fd) ℝ)
    (yContext : Fin 1 → Fin Nc → ℝ)
    (xTarget : Fin 1 → Matrix (Fin Nt) (Fin Fd) ℝ) :
    ∀ d : Fin 1, deepTimeForward mlp chol logNoiseVar xContext yContext xTarget d
      = singleDimDirect mlp chol logNoiseVar (xContext d) (yContext d) (xTarget d) :=
  fun _ => rfl

/-- fit.CustomDataset.__getitem__ split (deeptime/model.py lines 90-95):
idx = np.random.permutation(len(X)); the first int(cf * len(X)) permuted
indices are the context, the rest the target. -/
def splitIndices (cf : ℚ) (perm : List ℕ) : List ℕ × List ℕ :=
  (perm.take (numContext cf perm.length), perm.drop (numContext cf perm.length))

/-- One fit-time split draw.  fit seeds only torch's RNG with
config.random_state (torch.manual_seed, deeptime/model.py line 58); the split
permutation is drawn by np.random.permutation from numpy's global RNG, which
fit never seeds, so it enters here as the free input npPerm while
randomState has no influence on the result. -/
def fitSplitRun (randomState : ℕ) (npPerm : List ℕ) (cf : ℚ) : List ℕ × List ℕ :=
  splitIndices cf npPerm

theorem numContext_seven_tenths_ten : numContext (7 / 10) 10 = 7 := by
  rw [numContext]
  norm_num
  decide

/-- C4 (code evaluation): the fit-time split with context_fraction 0.7 on 10
stations has 7 context and 3 target indices, but the split indices are a
function of numpy's global-RNG permutation only — the configured
config.random_state (42 in both runs below) does not determine them, so two
runs with the same seed but different numpy RNG states produce different
split index sequences. -/
theorem c4_split_sizes_seed_unused :
    (∀ s1 s2 : ℕ, ∀ perm : List ℕ, ∀ cf : ℚ, fitSplitRun s1 perm cf = fitSplitRun s2 perm cf)
    ∧ numContext (7 / 10) 10 = 7
    ∧ (fitSplitRun 42 [0, 1, 2, 3, 4, 5, 6, 7, 8, 9] (7 / 10)).1.length = 7
    ∧ (fitSplitRun 42 [0, 1, 2, 3, 4, 5, 6, 7, 8, 9] (7 / 10)).2.length = 3
    ∧ List.Perm [1, 0, 2, 3, 4, 5, 6, 7, 8, 9] [0, 1, 2, 3, 4, 5, 6, 7, 8, 9]
    ∧ fitSplitRun 42 [0, 1, 2, 3, 4, 5, 6, 7, 8, 9] (7 / 10)
        ≠ fitSplitRun 42 [1, 0, 2, 3, 4, 5, 6, 7, 8, 9] (7 / 10) := by
  have hsplit1 : fitSplitRun 42 [0, 1, 2, 3, 4, 5, 6, 7, 8, 9] (7 / 10)
      = ([0, 1, 2, 3, 4, 5, 6], [7, 8, 9]) := by
    rw [fitSplitRun, splitIndices,
      show ([0, 1, 2, 3, 4, 5, 6, 7, 8, 9] : List ℕ).length = 10 from rfl,
      numContext_seven_tenths_ten]
    decide
  have hsplit2 : fitSplitRun 42 [1, 0, 2, 3, 4, 5, 6, 7, 8, 9] (7 / 10)
      = ([1, 0, 2, 3, 4, 5, 6], [7, 8, 9]) := by
    rw [fitSplitRun, splitIndices,
      show ([1, 0, 2, 3, 4, 5, 6, 7, 8, 9] : List ℕ).length = 10 from rfl,
      numContext_seven_tenths_ten]
    decide
  refine ⟨fun s1 s2 perm cf => rfl, numContext_seven_tenths_ten, ?_, ?_, by decide, ?_⟩
  · rw [hsplit1]
    rfl
  · rw [hsplit1]
    rfl
  · rw [hsplit1, hsplit2]
    decide

/-- The checkpoint decisions of fit's training loop (deeptime/model.py lines
104-126), with the running best_loss threaded through (none models the
initial np.inf): after each epoch the model is saved iff the epoch average
loss is strictly below best_loss, and best_loss is updated exactly then. -/
def checkpointFlags : Option ℚ → List ℚ → List Bool
  | _, [] => []
  | best, l :: rest =>
    let improved := match best with
      | none => true
      | some b => decide (l < b)
    improved :: checkpointFlags (if improved then some l else best) rest

/-- The per-epoch checkpoint decisions of fit, starting from
best_loss = np.inf. -/
def checkpointEpochs (losses : List ℚ) : List Bool :=
  checkpointFlags none losses

theorem checkpointFlags_getD (losses : List ℚ) :
    ∀ (best : Option ℚ) (i : ℕ), i < losses.length →
    ((checkpointFlags best losses).getD i false = true
      ↔ ((∀ b, best = some b → losses.getD i 0 < b)
          ∧ ∀ j, j < i → losses.getD i 0 < losses.getD j 0)) := by
  induction losses with
  | nil =>
    intro best i hi
    exact absurd hi (by simp)
  | cons l rest ih =>
    intro best i hi
    match i with
    | 0 =>
      match best with
      | none =>
        simp [checkpointFlags]
      | some b =>
        simp [checkpointFlags]
    | (i' + 1) =>
      have hi' : i' < rest.length := by simpa using hi
      match best with
      | none =>
        rw [show checkpointFlags none (l :: rest)
            = true :: checkpointFlags (some l) rest from rfl]
        rw [List.getD_cons_succ, List.getD_cons_succ, ih (some l) i' hi']
        constructor
        · rintro ⟨h1, h2⟩
          refine ⟨by simp, ?_⟩
          intro j hj
          match j with
          | 0 => simpa using h1 l rfl
          | (j' + 1) =>
            rw [List.getD_cons_succ]
            exact h2 j' (by omega)
        · rintro ⟨_, h2⟩
          refine ⟨?_, ?_⟩
          · intro b hb
            cases hb
            simpa using h2 0 (by omega)
          · intro j hj
            have := h2 (j + 1) (by omega)
            rwa [List.getD_cons_succ] at this
      | some b =>
        by_cases hlb : l < b
        · rw [show checkpointFlags (some b) (l :: rest)
              = true :: checkpointFlags (some l) rest by simp [checkpointFlags, hlb]]
          rw [List.getD_cons_succ, List.getD_cons_succ, ih (some l) i' hi']
          constructor
          · rintro ⟨h1, h2⟩
            have hxl : rest.getD i' 0 < l := h1 l rfl
            refine ⟨?_, ?_⟩
            · intro b' hb'
              cases hb'
              exact lt_trans hxl hlb
            · intro j hj
              match j with
              | 0 => simpa using hxl
              | (j' + 1) =>
                rw [List.getD_cons_succ]
                exact h2 j' (by omega)
          · rintro ⟨_, h2⟩
            refine ⟨?_, ?_⟩
            · intro b' hb'
              cases hb'
              simpa using h2 0 (by omega)
            · intro j hj
              have := h2 (j + 1) (by omega)
              rwa [List.getD_cons_succ] at this
        · rw [show checkpointFlags (some b) (l :: rest)
              = false :: checkpointFlags (some b) rest by simp [checkpointFlags, hlb]]
          rw [List.getD_cons_succ, List.getD_cons_succ, ih (some b) i' hi']
          have hbl : b ≤ l := le_of_not_lt hlb
          constructor
          · rintro ⟨h1, h2⟩
            have hxb : rest.getD i' 0 < b := h1 b rfl
            refine ⟨?_, ?_⟩
            · intro b' hb'
              cases hb'
              exact hxb
            · intro j hj
              match j with
              | 0 => simpa using lt_of_lt_of_le hxb hbl
              | (j' + 1) =>
                rw [List.getD_cons_succ]
                exact h2 j' (by omega)
          · rintro ⟨h1, h2⟩
            refine ⟨?_, ?_⟩
            · intro b' hb'
              cases hb'
              exact h1 b rfl
            · intro j hj
              have := h2 (j + 1) (by omega)
              rwa [List.getD_cons_succ] at this

/-- C7: the model checkpoint is written after epoch i iff that epoch's
average loss is strictly lower than every prior epoch's average loss; on the
loss sequence [5, 3, 4, 2] checkpoints are written after epochs 1, 2 and 4
only (0-indexed flags [true, true, false, true]), never after epoch 3. -/
theorem c7_checkpoint_iff_improvement (losses : List ℚ) (i : ℕ) (hi : i < losses.length) :
    ((checkpointEpochs losses).getD i false = true
      ↔ ∀ j, j < i → losses.getD i 0 < losses.getD j 0)
    ∧ checkpointEpochs [5, 3, 4, 2] = [true, true, false, true] := by
  constructor
  · rw [checkpointEpochs, checkpointFlags_getD losses none i hi]
    simp
  · decide

/-- Concrete instantiation of c7_checkpoint_iff_improvement at the loss
sequence [5, 3, 4, 2] and epoch index 2 (the non-improving epoch 3). -/
theorem c7_checkpoint_iff_improvement_witness :
    2 < ([5, 3, 4, 2] : List ℚ).length
    ∧ ((((checkpointEpochs [5, 3, 4, 2]).getD 2 false = true)
        ↔ ∀ j, j < 2 → ([5, 3, 4, 2] : List ℚ).getD 2 0 < ([5, 3, 4, 2] : List ℚ).getD j 0)
      ∧ checkpointEpochs [5, 3, 4, 2] = [true, true, false, true]) :=
  ⟨by decide, c7_checkpoint_iff_improvement [5, 3, 4, 2] 2 (by decide)⟩

/-- The artifacts fit_predict writes into working_dir. -/
inductive Artifact
  | modelPt
  | metadataPt
  | predictionsNc
deriving DecidableEq

/-- The artifact-store effects of fit's training loop (deeptime/model.py
lines 104-134).  Each epoch either finishes with an average loss (ok) or
raises inside the epoch (error).  best_loss starts at np.inf (none); after
an epoch whose loss improves on it, model.pt is (over)written; after the
loop, metadata.pt is written.  A raise aborts fit, leaving whatever was
already written. -/
def fitGo : Option ℚ → Finset Artifact → List (Except Unit ℚ) →
    Except (Finset Artifact) (Finset Artifact)
  | _, written, [] => Except.ok (insert Artifact.metadataPt written)
  | _, written, Except.error _ :: _ => Except.error written
  | best, written, Except.ok l :: rest =>
    let improved := match best with
      | none => true
      | some b => decide (l < b)
    if improved then fitGo (some l) (insert Artifact.modelPt written) rest
    else fitGo best written rest

/-- fit (deeptime/model.py lines 57-134) as an artifact-store execution,
starting from best_loss = np.inf and nothing written. -/
def fitExec (epochs : List (Except Unit ℚ)) : Except (Finset Artifact) (Finset Artifact) :=
  fitGo none ∅ epochs

/-- fit_predict (deeptime/model.py lines 196-198): fit, then predict, which
writes predictions.nc at its end; predictOk says whether predict completes.
On a raise, the artifacts already on disk remain. -/
def fitPredictExec (epochs : List (Except Unit ℚ)) (predictOk : Bool) :
    Except (Finset Artifact) (Finset Artifact) :=
  match fitExec epochs with
  | Except.error w => Except.error w
  | Except.ok w =>
    if predictOk then Except.ok (insert Artifact.predictionsNc w) else Except.error w

/-- The artifact set held by either outcome. -/
def exceptSet : Except (Finset Artifact) (Finset Artifact) → Finset Artifact
  | Except.ok w => w
  | Except.error w => w

theorem fitGo_allok_model (rest : List (Except Unit ℚ)) :
    ∀ (b : ℚ) (w : Finset Artifact), Artifact.modelPt ∈ w →
    (∀ e ∈ rest, ∃ q, e = Except.ok q) →
    fitGo (some b) w rest = Except.ok (insert Artifact.metadataPt w) := by
  induction rest with
  | nil =>
    intro b w _ _
    rfl
  | cons e rest ih =>
    intro b w hm hall
    obtain ⟨q, rfl⟩ := hall e (by simp)
    by_cases h : q < b
    · rw [show fitGo (some b) w (Except.ok q :: rest)
          = fitGo (some q) (insert Artifact.modelPt w) rest by simp [fitGo, h]]
      rw [Finset.insert_eq_self.mpr hm]
      exact ih q w hm (fun e he => hall e (by simp [he]))
    · rw [show fitGo (some b) w (Except.ok q :: rest)
          = fitGo (some b) w rest by simp [fitGo, h]]
      exact ih b w hm (fun e he => hall e (by simp [he]))

theorem fitGo_writes_subset (epochs : List (Except Unit ℚ)) :
    ∀ (best : Option ℚ) (w : Finset Artifact),
    exceptSet (fitGo best w epochs) ⊆ insert Artifact.metadataPt (insert Artifact.modelPt w) := by
  induction epochs with
  | nil =>
    intro best w
    rw [show fitGo best w [] = Except.ok (insert Artifact.metadataPt w) from rfl]
    exact Finset.insert_subset_insert _ (Finset.subset_insert _ w)
  | cons e rest ih =>
    intro best w
    match e with
    | Except.error u =>
      rw [show fitGo best w (Except.error u :: rest) = Except.error w from rfl]
      exact subset_trans (Finset.subset_insert _ w) (Finset.subset_insert _ _)
    | Except.ok l =>
      have hsplit : fitGo best w (Except.ok l :: rest)
          = fitGo (some l) (insert Artifact.modelPt w) rest
          ∨ fitGo best w (Except.ok l :: rest) = fitGo best w rest := by
        match best with
        | none => exact Or.inl (by simp [fitGo])
        | some b =>
          by_cases h : l < b
          · exact Or.inl (by simp [fitGo, h])
          · exact Or.inr (by simp [fitGo, h])
      rcases hsplit with h | h
      · rw [h]
        refine subset_trans (ih (some l) (insert Artifact.modelPt w)) ?_
        rw [Finset.insert_idem]
      · rw [h]
        exact ih best w

theorem artifact_pair_eq :
    insert Artifact.metadataPt (insert Artifact.modelPt (∅ : Finset Artifact))
      = {Artifact.modelPt, Artifact.metadataPt} := by
  decide

/-- C6 amended: a fit_predict run that completes — at least one epoch, every
epoch finishing with a loss, predict succeeding — writes all three artifacts;
a raising run never writes predictions.nc, but leaves whatever subset of
{model.pt, metadata.pt} was already written (model.pt after any improving
epoch, metadata.pt once fit finished), so a partial artifact set is
observable after a raising run. -/
theorem c6_amended_artifact_sets (epochs : List (Except Unit ℚ)) (l0 : ℚ)
    (rest : List (Except Unit ℚ)) (heq : epochs = Except.ok l0 :: rest)
    (hok : ∀ e ∈ rest, ∃ q, e = Except.ok q) :
    fitPredictExec epochs true
      = Except.ok {Artifact.modelPt, Artifact.metadataPt, Artifact.predictionsNc}
    ∧ ∀ (epochs' : List (Except Unit ℚ)) (pOk : Bool) (w : Finset Artifact),
        fitPredictExec epochs' pOk = Except.error w
        → Artifact.predictionsNc ∉ w ∧ w ⊆ {Artifact.modelPt, Artifact.metadataPt} := by
  constructor
  · have h1 : fitExec epochs
        = Except.ok (insert Artifact.metadataPt (insert Artifact.modelPt ∅)) := by
      rw [heq, fitExec]
      rw [show fitGo none ∅ (Except.ok l0 :: rest)
          = fitGo (some l0) (insert Artifact.modelPt ∅) rest by simp [fitGo]]
      exact fitGo_allok_model rest l0 (insert Artifact.modelPt ∅) (Finset.mem_insert_self _ _) hok
    rw [fitPredictExec, h1]
    show Except.ok
        (insert Artifact.predictionsNc (insert Artifact.metadataPt (insert Artifact.modelPt ∅)))
      = _
    rw [show insert Artifact.predictionsNc
          (insert Artifact.metadataPt (insert Artifact.modelPt (∅ : Finset Artifact)))
        = {Artifact.modelPt, Artifact.metadataPt, Artifact.predictionsNc} by decide]
  · intro epochs' pOk w herr
    have hsub := fitGo_writes_subset epochs' none ∅
    have hw : w = exceptSet (fitExec epochs') := by
      rw [fitPredictExec] at herr
      rcases hfe : fitExec epochs' with w' | w' <;> rw [hfe] at herr
      · cases herr
        rfl
      · cases pOk
        · cases herr
          rfl
        · exact absurd herr (by simp)
    rw [artifact_pair_eq] at hsub
    constructor
    · intro hmem
      have := hsub (hw ▸ hmem)
      exact absurd this (by decide)
    · intro a ha
      exact hsub (hw ▸ ha)

/-- C6 counterexample to the claim as stated: with epoch 1 finishing at loss
5 (writing model.pt) and epoch 2 raising, fit_predict raises while exactly
one artifact — model.pt — has been written: neither none nor all three. -/
theorem c6_counterexample_partial_artifacts :
    fitPredictExec [Except.ok 5, Except.error ()] true
      = Except.error {Artifact.modelPt}
    ∧ ({Artifact.modelPt} : Finset Artifact) ≠ ∅
    ∧ ({Artifact.modelPt} : Finset Artifact)
        ≠ {Artifact.modelPt, Artifact.metadataPt, Artifact.predictionsNc} := by
  refine ⟨?_, by decide, by decide⟩
  rfl

/-- Concrete instantiation of c6_amended_artifact_sets on the two-epoch loss
sequence [5, 3] with predict succeeding. -/
theorem c6_amended_artifact_sets_witness :
    (([Except.ok 5, Except.ok 3] : List (Except Unit ℚ)) = Except.ok 5 :: [Except.ok 3])
    ∧ (fitPredictExec [Except.ok 5, Except.ok 3] true
        = Except.ok {Artifact.modelPt, Artifact.metadataPt, Artifact.predictionsNc}
      ∧ ∀ (epochs' : List (Except Unit ℚ)) (pOk : Bool) (w : Finset Artifact),
          fitPredictExec epochs' pOk = Except.error w
          → Artifact.predictionsNc ∉ w ∧ w ⊆ {Artifact.modelPt, Artifact.metadataPt}) :=
  ⟨rfl, c6_amended_artifact_sets [Except.ok 5, Except.ok 3] 5 [Except.ok 3] rfl
    (by
      intro e he
      simp only [List.mem_singleton] at he
      exact ⟨3, he⟩)⟩

/-- pandas-style minimum of a column of values. -/
def colMin : List ℚ → ℚ
  | [] => 0
  | x :: xs => xs.foldl min x

/-- pandas-style maximum of a column of values. -/
def colMax : List ℚ → ℚ
  | [] => 0
  | x :: xs => xs.foldl max x

/-- fit's metadata construction (deeptime/model.py lines 62-72): per feature,
the min and max over the training data, persisted into metadata.pt. -/
def fitMeta (trainCol : String → List ℚ) : String → ℚ × ℚ :=
  fun f => (colMin (trainCol f), colMax (trainCol f))

/-- Min/max normalization of one column with given stats:
(df[feature] - fet_min) / (fet_max - fet_min) (deeptime/model.py lines 74
and 147-148). -/
def minMaxNorm (stats : ℚ × ℚ) (col : List ℚ) : List ℚ :=
  col.map (fun v => (v - stats.1) / (stats.2 - stats.1))

/-- predict (deeptime/model.py lines 139-148): load metadata.pt and normalize
each feature column with the loaded stats — meta is the only source of the
normalization constants. -/
def predictNormalize (meta : String → ℚ × ℚ) (col : String → List ℚ) : String → List ℚ :=
  fun f => minMaxNorm (meta f) (col f)

/-- fit_predict's normalization data flow: fit computes and persists
fitMeta trainCol; predict then normalizes the train and the test dataframes
with exactly those persisted stats. -/
def fitThenPredictNorm (trainCol testCol : String → List ℚ) :
    (String → List ℚ) × (String → List ℚ) :=
  (predictNormalize (fitMeta trainCol) trainCol, predictNormalize (fitMeta trainCol) testCol)

/-- C8: the min/max stats computed once by fit from the training data and
persisted in metadata.pt are the constants predict uses verbatim on both the
train and the test dataframes: every normalized value is
(v - train_min)/(train_max - train_min), for every test dataset — nothing is
recomputed from the test data (the closing concrete case separates the two:
with train column [0, 10] the test value 100 maps to 10, not to what
test-derived stats would give). -/
theorem c8_minmax_stats_frozen (trainCol testCol : String → List ℚ) (f : String) :
    (fitThenPredictNorm trainCol testCol).2 f
      = (testCol f).map (fun v =>
          (v - colMin (trainCol f)) / (colMax (trainCol f) - colMin (trainCol f)))
    ∧ (fitThenPredictNorm trainCol testCol).1 f
      = (trainCol f).map (fun v =>
          (v - colMin (trainCol f)) / (colMax (trainCol f) - colMin (trainCol f)))
    ∧ (∀ testCol' : String → List ℚ,
        (fitThenPredictNorm trainCol testCol').2 f
          = (testCol' f).map (fun v =>
              (v - colMin (trainCol f)) / (colMax (trainCol f) - colMin (trainCol f))))
    ∧ (fitThenPredictNorm (fun _ => [0, 10]) (fun _ => [100])).2 ("pm25") = [10] := by
  refine ⟨rfl, rfl, fun testCol' => rfl, ?_⟩
  show minMaxNorm (colMin [(0 : ℚ), 10], colMax [(0 : ℚ), 10]) [100] = [10]
  have hmin : colMin [(0 : ℚ), 10] = 0 := by
    show min 0 10 = 0
    norm_num
  have hmax : colMax [(0 : ℚ), 10] = 10 := by
    show max 0 10 = 10
    norm_num
  rw [minMaxNorm, hmin, hmax]
  norm_num

/-- One observation row of the flattened training dataframe: a time-step key,
feature values, and a target that may be missing (NaN). -/
structure ObsRow where
  time : ℕ
  x : List ℚ
  y : Option ℚ
deriving DecidableEq

/-- self.df[self.df.time == t]: the rows of a dataframe at one time-step. -/
def rowsAtTime (df : List ObsRow) (t : ℕ) : List ObsRow :=
  df.filter (fun r => r.time == t)

/-- fit.CustomDataset.__getitem__ (deeptime/model.py lines 84-89): rows at
time t, then ts_df.dropna(subset=[config.target]) removes every row whose
target is missing before the context/target split. -/
def fitPointRows (df : List ObsRow) (t : ℕ) : List ObsRow :=
  (rowsAtTime df t).filter (fun r => r.y.isSome)

/-- predict.CustomDataset.__getitem__ (deeptime/model.py lines 159-167): the
context is all training rows at time t — no dropna is applied. -/
def predictContextRows (trainDf : List ObsRow) (t : ℕ) : List ObsRow :=
  rowsAtTime trainDf t

/-- C10: the fit-time dataset drops rows with a missing target before
building each time-step's point set, but the predict-time dataset applies no
such filter: its context is all training rows at the time-step, so every row
with a missing target is in predict's context (and feeds the closed-form
solve at inference) while being excluded from fit's point set. -/
theorem c10_predict_keeps_missing_targets (df : List ObsRow) (t : ℕ) :
    predictContextRows df t = rowsAtTime df t
    ∧ ∀ r ∈ rowsAtTime df t, r.y = none →
        r ∈ predictContextRows df t ∧ r ∉ fitPointRows df t := by
  refine ⟨rfl, ?_⟩
  intro r hr hnone
  refine ⟨hr, ?_⟩
  intro hmem
  rw [fitPointRows, List.mem_filter] at hmem
  rcases hmem with ⟨_, hsome⟩
  rw [hnone] at hsome
  simp at hsome

/-- Concrete instantiation of c10_predict_keeps_missing_targets: at time 0
the training data holds a row with a missing target and one with an observed
target; the missing-target row is in predict's context but not in fit's
point set. -/
theorem c10_predict_keeps_missing_targets_witness :
    (⟨0, [1], none⟩ : ObsRow) ∈ rowsAtTime [⟨0, [1], none⟩, ⟨0, [2], some 3⟩] 0
    ∧ (⟨0, [1], none⟩ : ObsRow).y = none
    ∧ ((⟨0, [1], none⟩ : ObsRow) ∈ predictContextRows [⟨0, [1], none⟩, ⟨0, [2], some 3⟩] 0
      ∧ (⟨0, [1], none⟩ : ObsRow) ∉ fitPointRows [⟨0, [1], none⟩, ⟨0, [2], some 3⟩] 0) :=
  ⟨by decide, rfl,
    (c10_predict_keeps_missing_targets [⟨0, [1], none⟩, ⟨0, [2], some 3⟩] 0).2
      ⟨0, [1], none⟩ (by decide) rfl⟩

/-- The exception classes relevant to the rf baseline's try/except:
sklearn's fit raises ValueError on degenerate input; other exception types
exist and are not caught by the worker. -/
inductive PyError
  | valueError
  | typeError
deriving DecidableEq

/-- The per-time-step worker of the random-forest baseline's fit_predict
(rf/model.py lines 21-38): fit the model (outcome supplied by the sklearn
oracle); except ValueError: return np.zeros(len(test_X)) * np.nan — an
all-NaN vector of the test length, modelled as all-none; any other exception
propagates out of the worker.  On success the fitted model predicts the test
rows. -/
def train_fn {M : Type} (n : ℕ) (fitResult : Except PyError M)
    (predictFn : M → Fin n → ℚ) : Except PyError (Fin n → Option ℚ) :=
  match fitResult with
  | Except.ok m => Except.ok (fun i => some (predictFn m i))
  | Except.error PyError.valueError => Except.ok (fun _ => none)
  | Except.error e => Except.error e

/-- C9 amended: a ValueError raised by model.fit is caught and the time-step's
output is the all-NaN sentinel of the test length; a successful fit predicts;
any exception of another type propagates (and, re-raised by the joblib pool,
aborts the whole run). -/
theorem c9_amended_valueerror_caught (n : ℕ) (M : Type) (predictFn : M → Fin n → ℚ) :
    train_fn n (Except.error PyError.valueError) predictFn = Except.ok (fun _ => none)
    ∧ (∀ m, train_fn n (Except.ok m) predictFn
        = Except.ok (fun i => some (predictFn m i)))
    ∧ ∀ e, e ≠ PyError.valueError →
        train_fn n (Except.error e) predictFn = Except.error e := by
  refine ⟨rfl, fun m => rfl, ?_⟩
  intro e he
  cases e
  · exact absurd rfl he
  · rfl

/-- C9 counterexample to the claim as stated: a non-ValueError failure while
fitting (here a TypeError) is not caught — the worker raises instead of
substituting the all-NaN sentinel. -/
theorem c9_counterexample_typeerror_propagates :
    train_fn 3 (Except.error PyError.typeError) (fun (_ : Unit) (_ : Fin 3) => (0 : ℚ))
      = Except.error PyError.typeError
    ∧ train_fn 3 (Except.error PyError.typeError) (fun (_ : Unit) (_ : Fin 3) => (0 : ℚ))
      ≠ Except.ok (fun _ : Fin 3 => (none : Option ℚ)) :=
  ⟨rfl, fun h => Except.noConfusion h⟩

/-- Concrete instantiation of c9_amended_valueerror_caught: a TypeError from
model.fit propagates out of the worker. -/
theorem c9_amended_valueerror_caught_witness :
    PyError.typeError ≠ PyError.valueError
    ∧ train_fn 2 (Except.error PyError.typeError) (fun (_ : Unit) (_ : Fin 2) => (0 : ℚ))
        = Except.error PyError.typeError :=
  ⟨by decide,
    (c9_amended_valueerror_caught 2 Unit (fun _ _ => 0)).2.2 PyError.typeError (by decide)⟩

end AqmspModels
